import Mathlib

/-!
# Verification of the notephee Telegram core

Shallow embedding of the invite/binding registry (`BindingManager`), the
confirmation poller (`TgClient.StartPolling`) and the broadcast dispatcher
(`TgClient.SendMessaging`) from the Go sources, together with proofs of the
specified properties.

Conventions of the embedding:
* `sync.Map` is modelled as an association list with unique keys
  (`Store`); `Load`, `Store` and `Delete` are `storeLoad`, `storeStore`
  and `storeDelete`.
* time instants and durations are natural numbers; `time.Now()` and the
  firing time of a `time.Sleep`-based eviction goroutine are explicit
  parameters or events.
* nondeterminism (goroutine interleavings, the completion order of
  broadcast workers, the contents of fetched batches, `uuid.New()`) is
  an explicit parameter of the corresponding function.
* a `NotFound` error from `ResolveBinding` is `Option.none`.
-/

namespace Notephee

/-- `Binding` : the confirmed pairing of an internal user id with a
Telegram chat id (source `Binding` struct). `ChatID` is an `int64`,
modelled as `Int`. -/
structure Binding where
  UserID : String
  ChatID : Int
  deriving Repr, DecidableEq

/-- `pendingBinding` : the state stored between `CreateInvite` and a
confirmation; `Expiry` is a time instant (`time.Time`), modelled as `Nat`. -/
structure PendingBinding where
  UserID : String
  Expiry : Nat
  deriving Repr, DecidableEq

/-- The contents of the `sync.Map` field `BindingManager.store`:
an association list from invite codes to pending bindings. -/
abbrev Store := List (String × PendingBinding)

/-- `sync.Map.Load` on the invite store. -/
def storeLoad (s : Store) (k : String) : Option PendingBinding :=
  (s.find? (fun p => p.1 == k)).map Prod.snd

/-- `sync.Map.Delete` on the invite store. -/
def storeDelete (s : Store) (k : String) : Store :=
  s.filter (fun p => p.1 != k)

/-- `sync.Map.Store` on the invite store. -/
def storeStore (s : Store) (k : String) (v : PendingBinding) : Store :=
  (k, v) :: storeDelete s k

/-- `BindingManager` (the Invite Registry): the store, the invite TTL and
the bot name used for deep links.  The logger performs no state change and
is omitted. -/
structure BindingManager where
  store : Store
  ttl : Nat
  bot : String
  deriving Repr, DecidableEq

/-- `BindingManager.ResolveBinding` (part_002 lines 93–105): `Load` the
code; if absent return the NotFound error; otherwise `Delete` the code and
return the `Binding` of the stored user id with the supplied chat id.
Returns the result together with the store left behind. -/
def ResolveBinding (s : Store) (uuid : String) (chatID : Int) :
    Option Binding × Store :=
  match storeLoad s uuid with
  | none => (none, s)
  | some p => (some ⟨p.UserID, chatID⟩, storeDelete s uuid)

/-- Result of `BindingManager.CreateInvite` (part_002 lines 72–85): the
returned string, the updated store, and the instant at which the spawned
eviction goroutine (`time.Sleep(ttl); store.Delete(code)`) is due. -/
structure CreateResult where
  ret : String
  store : Store
  evictAt : Nat
  deriving Repr, DecidableEq

/-- `BindingManager.CreateInvite`: `inviteCode` stands for the value of
`uuid.New().String()` and `now` for `time.Now()`, both explicit parameters
of the embedding.  Stores `{UserID := userID, Expiry := now + ttl}` under
the code, schedules the eviction at `now + ttl`, and returns the deep-link
string `https://t.me/<bot>?start=<code>`. -/
def CreateInvite (bm : BindingManager) (inviteCode : String) (now : Nat)
    (userID : String) : CreateResult :=
  { ret := "https://t.me/" ++ bm.bot ++ "?start=" ++ inviteCode
  , store := storeStore bm.store inviteCode ⟨userID, now + bm.ttl⟩
  , evictAt := now + bm.ttl }

/-- Loading a key just deleted fails. -/
theorem storeLoad_storeDelete (s : Store) (k : String) :
    storeLoad (storeDelete s k) k = none := by
  unfold storeLoad storeDelete
  induction s with
  | nil => rfl
  | cons a t ih =>
      by_cases h : a.1 = k
      · simp [h, ih]
      · simp only [List.filter_cons]
        have hne : (a.1 != k) = true := by simp [h]
        simp only [hne, if_true]
        rw [List.find?_cons_of_neg]
        · exact ih
        · simp [h]

/-- Loading a key just stored yields the stored value. -/
theorem storeLoad_storeStore (s : Store) (k : String) (v : PendingBinding) :
    storeLoad (storeStore s k v) k = some v := by
  unfold storeLoad storeStore
  rw [List.find?_cons_of_pos]
  · rfl
  · simp

/-! ## Timed registry traces

The eviction goroutine spawned by `CreateInvite` (`go func() {
time.Sleep(bm.ttl); bm.store.Delete(inviteCode) }()`) is modelled as an
explicit `evict` event due at `creation + ttl`.  A run of the registry is a
chronologically ordered list of timed events applied to the store in
order; the timer firing when due is expressed by the position (and the
`Chronological` property) of the `evict` event in the trace. -/

/-- One timed action against the invite registry. -/
inductive RegAction
  | create (userID inviteCode : String) (ttl : Nat)
  | evict (inviteCode : String)
  | resolve (inviteCode : String) (chatID : Int)
  deriving Repr, DecidableEq

/-- Apply one timed action at instant `t`; a `resolve` also reports its
result. -/
def regStep (s : Store) (t : Nat) : RegAction → Store × Option (Option Binding)
  | .create uid code ttl => (storeStore s code ⟨uid, t + ttl⟩, none)
  | .evict code => (storeDelete s code, none)
  | .resolve code k =>
      let (r, s') := ResolveBinding s code k
      (s', some r)

/-- Run a list of timed registry events in the given order; returns the
final store and the `(time, resolve result)` pairs. -/
def runReg (s : Store) : List (Nat × RegAction) → Store × List (Nat × Option Binding)
  | [] => (s, [])
  | (t, a) :: rest =>
      let (s', out) := regStep s t a
      let (s'', outs) := runReg s' rest
      (s'', (out.map (fun r => (t, r))).toList ++ outs)

/-- A trace is chronological when its timestamps never decrease. -/
def Chronological (evs : List (Nat × RegAction)) : Prop :=
  evs.Chain' (fun a b => a.1 ≤ b.1)

/-- C2: `ResolveBinding` consumes a pending binding exactly once.  If a
pending binding for the code is stored, the call deletes it and returns
the stored user id paired with the supplied chat id, after which the code
is no longer loadable and a second sequential call returns NotFound and
leaves the store unchanged; if no pending binding is stored the call
returns NotFound and the store is unchanged. -/
theorem resolveBinding_consume_spec (s : Store) (code : String) (k k' : Int) :
    (∀ p : PendingBinding, storeLoad s code = some p →
      ResolveBinding s code k = (some ⟨p.UserID, k⟩, storeDelete s code) ∧
      storeLoad (ResolveBinding s code k).2 code = none ∧
      ResolveBinding (ResolveBinding s code k).2 code k'
        = (none, (ResolveBinding s code k).2)) ∧
    (storeLoad s code = none → ResolveBinding s code k = (none, s)) := by
  constructor
  · intro p hp
    have h1 : ResolveBinding s code k = (some ⟨p.UserID, k⟩, storeDelete s code) := by
      unfold ResolveBinding
      rw [hp]
    refine ⟨h1, ?_, ?_⟩
    · rw [h1]
      exact storeLoad_storeDelete s code
    · rw [h1]
      unfold ResolveBinding
      rw [storeLoad_storeDelete s code]
  · intro hn
    unfold ResolveBinding
    rw [hn]

/-- Witness for `resolveBinding_consume_spec` at a concrete store. -/
theorem resolveBinding_consume_spec_witness :
    ResolveBinding [("c0", ⟨"u1", 7⟩)] "c0" 5
      = (some ⟨"u1", 5⟩, storeDelete [("c0", ⟨"u1", 7⟩)] "c0") ∧
    ResolveBinding (ResolveBinding [("c0", ⟨"u1", 7⟩)] "c0" 5).2 "c0" 6
      = (none, (ResolveBinding [("c0", ⟨"u1", 7⟩)] "c0" 5).2) := by
  have h := (resolveBinding_consume_spec [("c0", ⟨"u1", 7⟩)] "c0" 5 6).1
    ⟨"u1", 7⟩ (by decide)
  exact ⟨h.1, h.2.2⟩

/-- C6: in a chronological run where the eviction scheduled by the
creation fires when due at `t0 + ttl`, a resolution attempted at any later
instant `tr` observes NotFound: the deferred eviction has already deleted
the entry, so an expired code never resolves. -/
theorem resolve_after_ttl_notFound (s : Store) (uid code : String)
    (ttl t0 tr : Nat) (k : Int) (h : t0 + ttl < tr) :
    Chronological
      [(t0, .create uid code ttl), (t0 + ttl, .evict code), (tr, .resolve code k)] ∧
    (runReg s
      [(t0, .create uid code ttl), (t0 + ttl, .evict code), (tr, .resolve code k)]).2
      = [(tr, none)] := by
  constructor
  · refine List.Chain'.cons (Nat.le_add_right t0 ttl) ?_
    exact List.Chain'.cons (Nat.le_of_lt h) (List.chain'_singleton _)
  · simp [runReg, regStep, ResolveBinding, storeLoad_storeDelete]

/-- Witness for `resolve_after_ttl_notFound` at a concrete trace. -/
theorem resolve_after_ttl_notFound_witness :
    (runReg []
      [(0, .create "u1" "c0" 1), (1, .evict "c0"), (2, .resolve "c0" 5)]).2
      = [(2, none)] := by
  have h := resolve_after_ttl_notFound [] "u1" "c0" 1 0 2 5 (by decide)
  exact h.2

/-- C7 (counterexample): `CreateInvite` does not return the invite code to
the caller; it returns the fully formatted deep link embedding the code. -/
theorem createInvite_link_counterexample :
    (CreateInvite ⟨[], 5, "notephee_bot"⟩ "abc123" 0 "u1").ret ≠ "abc123" ∧
    (CreateInvite ⟨[], 5, "notephee_bot"⟩ "abc123" 0 "u1").ret
      = "https://t.me/notephee_bot?start=abc123" := by
  constructor
  · decide
  · rfl

/-- C7 (amended): `CreateInvite` stores a pending binding keyed by the
freshly generated code with expiry `now + ttl`, schedules an eviction due
no earlier than `now + ttl`, and returns the deep-link URL
`https://t.me/<bot>?start=<code>` built from the code (the bare code is
not the returned value). -/
theorem createInvite_spec (bm : BindingManager) (code : String) (now : Nat)
    (uid : String) :
    (CreateInvite bm code now uid).ret
      = "https://t.me/" ++ bm.bot ++ "?start=" ++ code ∧
    storeLoad (CreateInvite bm code now uid).store code
      = some ⟨uid, now + bm.ttl⟩ ∧
    now + bm.ttl ≤ (CreateInvite bm code now uid).evictAt := by
  refine ⟨rfl, ?_, Nat.le_refl _⟩
  exact storeLoad_storeStore bm.store code ⟨uid, now + bm.ttl⟩

/-! ## The resolution race

`ResolveBinding` performs `sync.Map.Load` and `sync.Map.Delete` as two
separate operations (part_002 lines 94 and 98).  Each concurrent caller is
modelled by a program counter: `start` (about to `Load`), `loaded p`
(`Load` returned `p`, about to `Delete` and return), `done r` (returned
`r`).  A schedule is a list of caller indices giving the interleaving of
their atomic steps. -/

/-- Program counter of one goroutine executing `ResolveBinding`. -/
inductive CallerPC
  | start
  | loaded (p : PendingBinding)
  | done (r : Option Binding)
  deriving Repr, DecidableEq

/-- One atomic step of a caller of `ResolveBinding code chatID`. -/
def callerStep (code : String) (chatID : Int) (s : Store) :
    CallerPC → CallerPC × Store
  | .start =>
      match storeLoad s code with
      | none => (.done none, s)
      | some p => (.loaded p, s)
  | .loaded p => (.done (some ⟨p.UserID, chatID⟩), storeDelete s code)
  | .done r => (.done r, s)

/-- The shared store together with every caller's program counter. -/
structure RaceState where
  store : Store
  pcs : List CallerPC
  deriving Repr, DecidableEq

/-- Run an interleaving: at each schedule entry `i`, caller `i` (resolving
with chat id `chatIDs[i]`) takes its next atomic step. -/
def runSchedule (code : String) (chatIDs : List Int) :
    RaceState → List Nat → RaceState
  | st, [] => st
  | st, i :: rest =>
      match st.pcs.get? i, chatIDs.get? i with
      | some pc, some k =>
          let (pc', s') := callerStep code k st.store pc
          runSchedule code chatIDs ⟨s', st.pcs.set i pc'⟩ rest
      | _, _ => runSchedule code chatIDs st rest

/-- C1 (refuting the claimed atomicity): with a single pending binding for
`"c0"`, two concurrent callers of `ResolveBinding "c0"` interleaved as
Load₁, Load₂, Delete₁, Delete₂ BOTH return a `Binding` — the check and the
remove are separate `sync.Map` operations, not an atomic
check-and-remove, so it is not the case that exactly one of N concurrent
callers succeeds. -/
theorem resolveBinding_race_both_succeed :
    (runSchedule "c0" [1, 2]
        ⟨[("c0", ⟨"u1", 10⟩)], [.start, .start]⟩ [0, 1, 0, 1]).pcs
      = [.done (some ⟨"u1", 1⟩), .done (some ⟨"u1", 2⟩)] := by
  decide

/-! ## The confirmation poller

`TgClient.StartPolling` (part_002 lines 113–168).  Go strings are byte
slices; `strings.HasPrefix` and `strings.TrimPrefix` are embedded on the
character lists underlying Lean strings. -/

/-- `strings.HasPrefix s pre`. -/
def hasPre (s pre : String) : Bool :=
  pre.data.isPrefixOf s.data

/-- `strings.TrimPrefix s pre`: drops `pre` when it is a leading
fragment of `s`, otherwise returns `s` unchanged. -/
def trimPre (s pre : String) : String :=
  if hasPre s pre then String.mk (s.data.drop pre.data.length) else s

/-- One element of `UpdatesResponse.Result` (part_002 lines 36–44), with
the nested `Message.Text` and `Message.Chat.ID` flattened. -/
structure Update where
  UpdateID : Int
  Text : String
  ChatID : Int
  deriving Repr, DecidableEq

/-- The poller's mutable state: the `offset` cursor (part_002 line 124)
and the binding manager's store it resolves against. -/
structure PollState where
  offset : Int
  store : Store
  deriving Repr, DecidableEq

/-- The fixed confirmation-command marker of part_002 line 157. -/
def startCmd : String := "/start "

/-- Observable effects of processing one update: the callback invocations
made and the number of `ResolveBinding` calls performed. -/
structure EventEffects where
  callbacks : List Binding
  resolveCalls : Nat
  deriving Repr, DecidableEq

/-- The loop body for one update (part_002 lines 151–165): first the
cursor is set to `UpdateID + 1`, then the text is matched against the
command marker; on a match the code is resolved, a NotFound error is
logged and skipped, a success invokes the callback synchronously. -/
def processUpdate (st : PollState) (upd : Update) : PollState × EventEffects :=
  let st1 : PollState := { st with offset := upd.UpdateID + 1 }
  if hasPre upd.Text startCmd then
    let inviteCode := trimPre upd.Text startCmd
    match ResolveBinding st1.store inviteCode upd.ChatID with
    | (none, s') => ({ st1 with store := s' }, ⟨[], 1⟩)
    | (some b, s') => ({ st1 with store := s' }, ⟨[b], 1⟩)
  else (st1, ⟨[], 0⟩)

/-- The inner `for _, upd := range updates.Result` loop: fold
`processUpdate` over the batch, collecting callback invocations in
order. -/
def processBatch (st : PollState) : List Update → PollState × List Binding
  | [] => (st, [])
  | u :: rest =>
      let (st1, eff) := processUpdate st u
      let (st2, cbs) := processBatch st1 rest
      (st2, eff.callbacks ++ cbs)

/-- Outcome of one `getUpdates` fetch: `failure` covers both the HTTP
request error (line 136) and the JSON decode error (line 143); `success`
carries the decoded batch. -/
inductive FetchOutcome
  | failure
  | success (upds : List Update)
  deriving Repr, DecidableEq

/-- Observable trace of a poller run: how many transport fetches were
made, the callback invocations in order, and whether the loop returned
because the cancellation signal was observed. -/
structure PollTrace where
  fetches : Nat
  callbacks : List Binding
  cancelled : Bool
  deriving Repr, DecidableEq

/-- The polling loop (part_002 lines 126–167) driven by a finite list of
iteration inputs, each giving the cancellation signal as sampled once at
the top of the iteration and the outcome of the fetch were one made.  A
`failure` iteration backs off and retries with the state untouched; a
`success` iteration processes its batch.  An exhausted input list leaves
the loop still running (`cancelled = false`). -/
def runPoller (st : PollState) :
    List (Bool × FetchOutcome) → PollState × PollTrace
  | [] => (st, ⟨0, [], false⟩)
  | (cancel, f) :: rest =>
      if cancel then (st, ⟨0, [], true⟩)
      else
        match f with
        | .failure =>
            let (st', tr) := runPoller st rest
            (st', ⟨tr.fetches + 1, tr.callbacks, tr.cancelled⟩)
        | .success upds =>
            let (st1, cbs) := processBatch st upds
            let (st', tr) := runPoller st1 rest
            (st', ⟨tr.fetches + 1, cbs ++ tr.callbacks, tr.cancelled⟩)

/-- The fields of `TgClient` that the binding manager and the poller
inspect: the enabled flag and the bot name. -/
structure TgClient where
  Enabled : Bool
  name : String
  deriving Repr, DecidableEq

/-- `TgClient.NewBindingManager` (part_002 lines 55–66): `nil` when the
client is disabled, otherwise a fresh manager with an empty store. -/
def NewBindingManager (c : TgClient) (ttl : Nat) : Option BindingManager :=
  if c.Enabled then some ⟨[], ttl, c.name⟩ else none

/-- `TgClient.StartPolling` (part_002 lines 113–168): warn and return at
once when the client is disabled or the manager is `nil` (zero fetches,
no callbacks); otherwise run the loop from `offset = 0` over the
manager's store. -/
def StartPolling (c : TgClient) (bm : Option BindingManager)
    (ins : List (Bool × FetchOutcome)) : PollState × PollTrace :=
  if !c.Enabled then (⟨0, []⟩, ⟨0, [], false⟩)
  else
    match bm with
    | none => (⟨0, []⟩, ⟨0, [], false⟩)
    | some bm => runPoller ⟨0, bm.store⟩ ins

/-- A marker string followed by anything is recognised by `hasPre`. -/
theorem hasPre_append (pre rest : String) : hasPre (pre ++ rest) pre = true := by
  unfold hasPre
  rw [String.data_append]
  exact List.isPrefixOf_iff_prefix.mpr (List.prefix_append _ _)

/-- Trimming a marker string off itself followed by anything leaves the
rest. -/
theorem trimPre_append (pre rest : String) : trimPre (pre ++ rest) pre = rest := by
  unfold trimPre
  rw [hasPre_append]
  simp only [if_true]
  apply String.ext
  show ((pre ++ rest).data.drop pre.data.length) = rest.data
  rw [String.data_append]
  exact List.drop_left pre.data rest.data

/-- The cursor after one update is `UpdateID + 1`, whatever the text, the
store and the resolution outcome: the advancement at part_002 line 152
precedes and is independent of the event's side effects. -/
theorem processUpdate_offset (st : PollState) (u : Update) :
    (processUpdate st u).1.offset = u.UpdateID + 1 := by
  unfold processUpdate
  dsimp only
  by_cases h : hasPre u.Text startCmd
  · simp only [h, if_true]
    rcases hr : ResolveBinding st.store (trimPre u.Text startCmd) u.ChatID with ⟨r, s'⟩
    cases r <;> simp [hr]
  · simp [h]

/-- C8: a transport-failure iteration is a frame: the poller retries with
the cursor and the store exactly as they were, consumes no event and
invokes no callback in that iteration, and the failed fetch still counts
as one transport call. -/
theorem poller_fetch_failure_frame (st : PollState)
    (rest : List (Bool × FetchOutcome)) :
    (runPoller st ((false, .failure) :: rest)).1 = (runPoller st rest).1 ∧
    (runPoller st ((false, .failure) :: rest)).2.callbacks
      = (runPoller st rest).2.callbacks ∧
    (runPoller st ((false, .failure) :: rest)).2.fetches
      = (runPoller st rest).2.fetches + 1 := by
  rcases h : runPoller st rest with ⟨st', tr⟩
  simp [runPoller, h]

/-- C5: processing one event.  (i) the command marker is the fixed string
"/start "; (ii) on a matching text whose code has a pending binding for
user `u`, arriving from chat `k`, exactly one `ResolveBinding` call is
made, the code is consumed, and the callback is invoked exactly once with
`⟨u, k⟩`; (iii) on a matching text whose code is absent, one
`ResolveBinding` call is made, no callback is invoked, and the store is
untouched; (iv) the batch loop always continues with the remaining events
after an event's effects, so a NotFound never terminates it; (v) a
non-matching text triggers neither `ResolveBinding` nor the callback and
leaves the store untouched. -/
theorem poller_confirmation_spec (st : PollState) (id k : Int) (code : String) :
    startCmd = "/start " ∧
    (∀ u exp, storeLoad st.store code = some ⟨u, exp⟩ →
      processUpdate st ⟨id, startCmd ++ code, k⟩
        = (⟨id + 1, storeDelete st.store code⟩, ⟨[⟨u, k⟩], 1⟩)) ∧
    (storeLoad st.store code = none →
      processUpdate st ⟨id, startCmd ++ code, k⟩
        = (⟨id + 1, st.store⟩, ⟨[], 1⟩)) ∧
    (∀ e rest, (processBatch st (e :: rest)).2
        = (processUpdate st e).2.callbacks
            ++ (processBatch (processUpdate st e).1 rest).2) ∧
    (∀ txt, hasPre txt startCmd = false →
      processUpdate st ⟨id, txt, k⟩ = (⟨id + 1, st.store⟩, ⟨[], 0⟩)) := by
  refine ⟨rfl, ?_, ?_, ?_, ?_⟩
  · intro u exp hp
    unfold processUpdate
    simp only [hasPre_append, if_true, trimPre_append]
    unfold ResolveBinding
    rw [hp]
  · intro hn
    unfold processUpdate
    simp only [hasPre_append, if_true, trimPre_append]
    unfold ResolveBinding
    rw [hn]
  · intro e rest
    rcases h1 : processUpdate st e with ⟨st1, eff⟩
    rcases h2 : processBatch st1 rest with ⟨st2, cbs⟩
    simp [processBatch, h1, h2]
  · intro txt ht
    unfold processUpdate
    simp [ht]

/-- Witness for `poller_confirmation_spec`: the spec's own example, code
"abc123" pending for user "u1", confirmed from chat 555. -/
theorem poller_confirmation_spec_witness :
    processUpdate ⟨0, [("abc123", ⟨"u1", 9⟩)]⟩ ⟨7, startCmd ++ "abc123", 555⟩
      = (⟨8, []⟩, ⟨[⟨"u1", 555⟩], 1⟩) := by
  have h := (poller_confirmation_spec ⟨0, [("abc123", ⟨"u1", 9⟩)]⟩ 7 555 "abc123").2.1
    "u1" 9 (by decide)
  rw [h]
  decide

/-! ## Cursor discipline -/

/-- A batch whose sequence ids are strictly ascending. -/
def ascending : List Update → Bool
  | [] => true
  | [_] => true
  | a :: b :: rest => (decide (a.UpdateID < b.UpdateID)) && ascending (b :: rest)

/-- Well-formed fetch inputs relative to a starting cursor: every
successful batch is strictly ascending and all its ids are at least the
cursor current at that fetch (the `getUpdates` contract for `offset`). -/
def goodBatches : Int → List (Bool × FetchOutcome) → Bool
  | _, [] => true
  | off, (_, f) :: rest =>
      match f with
      | .failure => goodBatches off rest
      | .success upds =>
          (ascending upds && upds.all (fun u => decide (off ≤ u.UpdateID)))
            && goodBatches (upds.foldl (fun _ u => u.UpdateID + 1) off) rest

theorem ascending_tail {a : Update} {l : List Update}
    (h : ascending (a :: l) = true) : ascending l = true := by
  cases l with
  | nil => rfl
  | cons b rest =>
      unfold ascending at h
      rw [Bool.and_eq_true] at h
      exact h.2

theorem ascending_head_lt {a : Update} {l : List Update}
    (h : ascending (a :: l) = true) :
    ∀ v ∈ l, a.UpdateID < v.UpdateID := by
  induction l generalizing a with
  | nil => intro v hv; cases hv
  | cons b rest ih =>
      intro v hv
      have h2 := h
      unfold ascending at h2
      rw [Bool.and_eq_true] at h2
      have hab : a.UpdateID < b.UpdateID := of_decide_eq_true h2.1
      cases hv with
      | head => exact hab
      | tail _ hv => exact lt_trans hab (ih h2.2 v hv)

/-- The cursor after a batch is the fold of `UpdateID + 1` over its
events, independent of the store and of every side effect. -/
theorem processBatch_offset (upds : List Update) : ∀ st : PollState,
    (processBatch st upds).1.offset
      = upds.foldl (fun _ u => u.UpdateID + 1) st.offset := by
  induction upds with
  | nil => intro st; rfl
  | cons u rest ih =>
      intro st
      rcases h1 : processUpdate st u with ⟨st1, eff⟩
      rcases h2 : processBatch st1 rest with ⟨st2, cbs⟩
      have hoff : st1.offset = u.UpdateID + 1 := by
        have := processUpdate_offset st u
        rw [h1] at this
        exact this
      simp only [processBatch, h1, h2, List.foldl_cons]
      have h3 := ih st1
      rw [h2, hoff] at h3
      exact h3

/-- The end cursor of an ascending batch of ids at least `off` is at
least `off`. -/
theorem foldl_cursor_ge (upds : List Update) : ∀ off : Int,
    ascending upds = true → (∀ u ∈ upds, off ≤ u.UpdateID) →
    off ≤ upds.foldl (fun _ u => u.UpdateID + 1) off := by
  induction upds with
  | nil => intro off _ _; exact le_refl off
  | cons u rest ih =>
      intro off ha hall
      have h1 : off ≤ u.UpdateID := hall u (List.mem_cons_self u rest)
      have h2 : ∀ v ∈ rest, u.UpdateID + 1 ≤ v.UpdateID := fun v hv =>
        Int.add_one_le_iff.mpr (ascending_head_lt ha v hv)
      calc off ≤ u.UpdateID + 1 := le_trans h1 (Int.le_add_one (le_refl _))
        _ ≤ rest.foldl (fun _ u => u.UpdateID + 1) (u.UpdateID + 1) :=
            ih (u.UpdateID + 1) (ascending_tail ha) h2

/-- Every intermediate cursor value along an ascending in-range batch is
non-decreasing. -/
theorem cursor_chain_of_batch (upds : List Update) : ∀ off : Int,
    ascending upds = true → (∀ u ∈ upds, off ≤ u.UpdateID) →
    List.Chain' (· ≤ ·) (upds.scanl (fun _ u => u.UpdateID + 1) off) := by
  induction upds with
  | nil => intro off _ _; simp [List.scanl]
  | cons u rest ih =>
      intro off ha hall
      have h1 : off ≤ u.UpdateID := hall u (List.mem_cons_self u rest)
      have h2 : ∀ v ∈ rest, u.UpdateID + 1 ≤ v.UpdateID := fun v hv =>
        Int.add_one_le_iff.mpr (ascending_head_lt ha v hv)
      have hrec := ih (u.UpdateID + 1) (ascending_tail ha) h2
      rw [List.scanl]
      refine List.chain'_cons'.mpr ⟨?_, hrec⟩
      intro y hy
      cases rest with
      | nil =>
          simp [List.scanl] at hy
          omega
      | cons v rest' =>
          simp [List.scanl] at hy
          omega

/-- Over well-formed inputs the run's end cursor never drops below its
start. -/
theorem runPoller_offset_mono (ins : List (Bool × FetchOutcome)) :
    ∀ st : PollState, goodBatches st.offset ins = true →
    st.offset ≤ (runPoller st ins).1.offset := by
  induction ins with
  | nil => intro st _; exact le_refl _
  | cons x rest ih =>
      intro st hg
      rcases x with ⟨cancel, f⟩
      cases cancel with
      | true => simp [runPoller]
      | false =>
          cases f with
          | failure =>
              have hg' : goodBatches st.offset rest = true := hg
              rcases h : runPoller st rest with ⟨st', tr⟩
              have := ih st hg'
              rw [h] at this
              simpa [runPoller, h] using this
          | success upds =>
              have hg2 := hg
              unfold goodBatches at hg2
              simp only [Bool.and_eq_true] at hg2
              obtain ⟨⟨ha, hall⟩, hrest⟩ := hg2
              have hall' : ∀ u ∈ upds, st.offset ≤ u.UpdateID := by
                intro u hu
                exact of_decide_eq_true (List.all_eq_true.mp hall u hu)
              rcases h1 : processBatch st upds with ⟨st1, cbs⟩
              have hoff : st1.offset
                  = upds.foldl (fun _ u => u.UpdateID + 1) st.offset := by
                have := processBatch_offset upds st
                rw [h1] at this
                exact this
              have hge : st.offset ≤ st1.offset := by
                rw [hoff]
                exact foldl_cursor_ge upds st.offset ha hall'
              have hrest' : goodBatches st1.offset rest = true := by
                rw [hoff]
                exact hrest
              rcases h2 : runPoller st1 rest with ⟨st', tr⟩
              have := ih st1 hrest'
              rw [h2] at this
              have : st.offset ≤ st'.offset := le_trans hge this
              simpa [runPoller, h1, h2] using this

/-- C4: cursor discipline of the poller.  (i) after any single event the
cursor is `UpdateID + 1` whatever the store, so the advancement is
independent of (and in the code precedes) the event's side effects;
(ii) the cursor after a batch is a function of the event ids alone;
(iii) a batch with ids `[5, 6, 7]` leaves the cursor at `8`; (iv) within
an ascending in-range batch every successive cursor value is
non-decreasing; (v) across a whole run over well-formed inputs the cursor
never drops below its starting value, so a passed id is never requested
again. -/
theorem poller_cursor_spec (st : PollState) (upds : List Update)
    (ins : List (Bool × FetchOutcome)) (t5 t6 t7 : String) (c5 c6 c7 : Int)
    (hg : goodBatches st.offset ins = true)
    (ha : ascending upds = true)
    (hall : ∀ u ∈ upds, st.offset ≤ u.UpdateID) :
    (∀ (u : Update) (s : Store),
      (processUpdate ⟨st.offset, s⟩ u).1.offset = u.UpdateID + 1) ∧
    (∀ s : Store, (processBatch ⟨st.offset, s⟩ upds).1.offset
        = upds.foldl (fun _ u => u.UpdateID + 1) st.offset) ∧
    (processBatch st [⟨5, t5, c5⟩, ⟨6, t6, c6⟩, ⟨7, t7, c7⟩]).1.offset = 8 ∧
    List.Chain' (· ≤ ·) (upds.scanl (fun _ u => u.UpdateID + 1) st.offset) ∧
    st.offset ≤ (runPoller st ins).1.offset := by
  refine ⟨fun u s => processUpdate_offset ⟨st.offset, s⟩ u,
    fun s => processBatch_offset upds ⟨st.offset, s⟩, ?_,
    cursor_chain_of_batch upds st.offset ha hall,
    runPoller_offset_mono ins st hg⟩
  rw [processBatch_offset]
  rfl

/-- Witness for `poller_cursor_spec` at a concrete run. -/
theorem poller_cursor_spec_witness :
    (processBatch ⟨0, []⟩ [⟨5, "a", 1⟩, ⟨6, "b", 2⟩, ⟨7, "c", 3⟩]).1.offset = 8 ∧
    (0 : Int) ≤ (runPoller ⟨0, []⟩ [(false, .success [⟨5, "a", 1⟩])]).1.offset := by
  have h := poller_cursor_spec ⟨0, []⟩ [⟨5, "a", 1⟩, ⟨6, "b", 2⟩, ⟨7, "c", 3⟩]
    [(false, .success [⟨5, "a", 1⟩])] "a" "b" "c" 1 2 3
    (by decide) (by decide) (by decide)
  exact ⟨h.2.2.1, h.2.2.2.2⟩

/-- C9: cancellation discipline.  (i) when the signal is first observed
set at the top of iteration `pre.length` the loop returns at once with
exactly `pre.length` fetches made — none in or after the cancelled
iteration; (ii) while the signal is never observed set, the loop never
returns because of cancellation, whatever happens in the iterations. -/
theorem poller_cancellation_spec (st : PollState)
    (pre post : List (Bool × FetchOutcome)) (f : FetchOutcome)
    (hpre : ∀ x ∈ pre, x.1 = false) :
    (runPoller st (pre ++ (true, f) :: post)).2.cancelled = true ∧
    (runPoller st (pre ++ (true, f) :: post)).2.fetches = pre.length ∧
    (∀ (st' : PollState) (ins : List (Bool × FetchOutcome)),
      (∀ x ∈ ins, x.1 = false) → (runPoller st' ins).2.cancelled = false) := by
  refine ⟨?_, ?_, ?_⟩
  · induction pre generalizing st with
    | nil => simp [runPoller]
    | cons x rest ih =>
        rcases x with ⟨b, fo⟩
        have hb : b = false := hpre (b, fo) (List.mem_cons_self _ _)
        have hrest : ∀ x ∈ rest, x.1 = false := fun x hx =>
          hpre x (List.mem_cons_of_mem _ hx)
        subst hb
        cases fo with
        | failure =>
            rcases h : runPoller st (rest ++ (true, f) :: post) with ⟨st', tr⟩
            have := ih st hrest
            rw [h] at this
            simpa [runPoller, h] using this
        | success upds =>
            rcases h1 : processBatch st upds with ⟨st1, cbs⟩
            rcases h : runPoller st1 (rest ++ (true, f) :: post) with ⟨st', tr⟩
            have := ih st1 hrest
            rw [h] at this
            simpa [runPoller, h1, h] using this
  · induction pre generalizing st with
    | nil => simp [runPoller]
    | cons x rest ih =>
        rcases x with ⟨b, fo⟩
        have hb : b = false := hpre (b, fo) (List.mem_cons_self _ _)
        have hrest : ∀ x ∈ rest, x.1 = false := fun x hx =>
          hpre x (List.mem_cons_of_mem _ hx)
        subst hb
        cases fo with
        | failure =>
            rcases h : runPoller st (rest ++ (true, f) :: post) with ⟨st', tr⟩
            have := ih st hrest
            rw [h] at this
            simpa [runPoller, h] using this
        | success upds =>
            rcases h1 : processBatch st upds with ⟨st1, cbs⟩
            rcases h : runPoller st1 (rest ++ (true, f) :: post) with ⟨st', tr⟩
            have := ih st1 hrest
            rw [h] at this
            simpa [runPoller, h1, h] using this
  · intro st' ins
    induction ins generalizing st' with
    | nil => intro _; rfl
    | cons x rest ih =>
        intro hins
        rcases x with ⟨b, fo⟩
        have hb : b = false := hins (b, fo) (List.mem_cons_self _ _)
        have hrest : ∀ x ∈ rest, x.1 = false := fun x hx =>
          hins x (List.mem_cons_of_mem _ hx)
        subst hb
        cases fo with
        | failure =>
            rcases h : runPoller st' rest with ⟨st'', tr⟩
            have := ih st' hrest
            rw [h] at this
            simpa [runPoller, h] using this
        | success upds =>
            rcases h1 : processBatch st' upds with ⟨st1, cbs⟩
            rcases h : runPoller st1 rest with ⟨st'', tr⟩
            have := ih st1 hrest
            rw [h] at this
            simpa [runPoller, h1, h] using this

/-- Witness for `poller_cancellation_spec`: one failed fetch, then the
signal is observed. -/
theorem poller_cancellation_spec_witness :
    (runPoller ⟨0, []⟩ [(false, .failure), (true, .success [])]).2.cancelled = true ∧
    (runPoller ⟨0, []⟩ [(false, .failure), (true, .success [])]).2.fetches = 1 := by
  have h := poller_cancellation_spec ⟨0, []⟩ [(false, .failure)] [] (.success [])
    (by decide)
  exact ⟨h.1, h.2.1⟩

/-- C10: disabled-path behaviour.  A disabled client gets no binding
manager (`nil`), and `StartPolling` on a disabled client or with a `nil`
manager returns at once with zero transport fetches, no callback
invocations and no state. -/
theorem disabled_client_spec (c : TgClient) (ttl : Nat)
    (bm : Option BindingManager) (ins : List (Bool × FetchOutcome)) :
    (c.Enabled = false →
      NewBindingManager c ttl = none ∧
      StartPolling c bm ins = (⟨0, []⟩, ⟨0, [], false⟩)) ∧
    StartPolling c none ins = (⟨0, []⟩, ⟨0, [], false⟩) := by
  constructor
  · intro h
    constructor
    · simp [NewBindingManager, h]
    · simp [StartPolling, h]
  · cases hc : c.Enabled with
    | false => simp [StartPolling, hc]
    | true => simp [StartPolling, hc]

/-- Witness for `disabled_client_spec` at a concrete disabled client. -/
theorem disabled_client_spec_witness :
    NewBindingManager ⟨false, "b"⟩ 5 = none ∧
    StartPolling ⟨false, "b"⟩ none [] = (⟨0, []⟩, ⟨0, [], false⟩) := by
  have h := disabled_client_spec ⟨false, "b"⟩ 5 none []
  exact ⟨(h.1 rfl).1, h.2⟩

/-! ## The broadcast dispatcher

`TgClient.SendMessaging` (client.go lines 161–196).  The per-recipient
goroutine bodies are pure given two oracles: the outcome of
`limiter.Wait` and the outcome of `SendText` for each recipient.  The
nondeterministic order in which the goroutines reach the mutex-guarded
append is an explicit permutation of the recipient indices; `wg.Wait`
joins every goroutine before the results are returned. -/

/-- `TgResponse` (client.go lines 32–40); the raw `Result` payload is
inert for these properties and carried as a string. -/
structure TgResponse where
  OK : Bool
  Description : String
  Result : String
  ErrorCode : Int
  RetryAfter : Int
  deriving Repr, DecidableEq

/-- `MessageOptions` (client.go lines 20–23). -/
structure MessageOptions where
  ChatID : Int
  Text : String
  deriving Repr, DecidableEq

/-- `SendingOptions` (client.go lines 26–29). -/
structure SendingOptions where
  ChatIDs : List Int
  Text : String
  deriving Repr, DecidableEq

/-- `SendResult` (client.go lines 52–56): `Response` is a pointer, `nil`
when the limiter failed before any send. -/
structure SendResult where
  ChatID : Int
  Response : Option TgResponse
  Error : Option String
  deriving Repr, DecidableEq

/-- Body of one worker goroutine (client.go lines 173–191): wait on the
shared limiter — on a limiter error record `{chatID, nil, err}` and stop —
otherwise call `SendText{chatID, text}` and record its response and
error.  `limiter` gives the `limiter.Wait` outcome and `send` the
`SendText` outcome for each recipient. -/
def sendUnit (limiter : Int → Option String)
    (send : MessageOptions → TgResponse × Option String)
    (text : String) (chatID : Int) : SendResult :=
  match limiter chatID with
  | some err => { ChatID := chatID, Response := none, Error := some err }
  | none =>
      let (resp, err) := send { ChatID := chatID, Text := text }
      { ChatID := chatID, Response := some resp, Error := err }

/-- `TgClient.SendMessaging`: one worker per entry of `ChatIDs`; the
results are appended in the completion order `order` (a permutation of
the indices); the call returns only after all workers are joined, hence
the full list. -/
def SendMessaging (limiter : Int → Option String)
    (send : MessageOptions → TgResponse × Option String)
    (options : SendingOptions) (order : List Nat) : List SendResult :=
  order.filterMap fun i =>
    (options.ChatIDs.get? i).map (sendUnit limiter send options.Text)

/-- A worker's result is tagged with its own recipient. -/
theorem sendUnit_ChatID (limiter : Int → Option String)
    (send : MessageOptions → TgResponse × Option String)
    (text : String) (chatID : Int) :
    (sendUnit limiter send text chatID).ChatID = chatID := by
  unfold sendUnit
  cases limiter chatID with
  | some err => rfl
  | none =>
      rcases hs : send { ChatID := chatID, Text := text } with ⟨resp, err⟩
      simp [hs]

/-- Collecting `l.get? i` over the index range in order is just `l`. -/
theorem filterMap_get_range {α β : Type} (l : List α) (g : α → β) :
    (List.range l.length).filterMap (fun i => (l.get? i).map g) = l.map g := by
  induction l with
  | nil => rfl
  | cons a t ih =>
      show (List.range (t.length + 1)).filterMap (fun i => (((a :: t).get? i).map g)) = _
      rw [List.range_succ_eq_map, List.filterMap_cons, List.filterMap_map]
      simp only [List.get?_cons_zero, Option.map_some']
      rw [List.map_cons]
      have hc : ((fun i => (((a :: t).get? i).map g)) ∘ Nat.succ)
          = (fun i => ((t.get? i).map g)) := by
        funext i
        rfl
      rw [hc, ih]

/-- C3: `SendMessaging` joins every worker and yields exactly one result
per recipient, in some completion order.  (i) the result list is a
permutation of one `sendUnit` result per entry of `ChatIDs`; (ii) its
length equals the number of recipients; (iii) every recipient id occurs
in the results exactly as often as in `ChatIDs` (exactly once for
distinct recipients); (iv) a recipient's result depends only on its own
limiter and transport outcomes, so altering any other recipient's
outcomes leaves it unchanged. -/
theorem sendMessaging_results_spec (limiter : Int → Option String)
    (send : MessageOptions → TgResponse × Option String)
    (options : SendingOptions) (order : List Nat)
    (h : order.Perm (List.range options.ChatIDs.length)) :
    (SendMessaging limiter send options order).Perm
      (options.ChatIDs.map (sendUnit limiter send options.Text)) ∧
    (SendMessaging limiter send options order).length
      = options.ChatIDs.length ∧
    (∀ r : Int,
      ((SendMessaging limiter send options order).filter
          (fun x => x.ChatID == r)).length
        = (options.ChatIDs.filter (fun c => c == r)).length) ∧
    (∀ (limiter' : Int → Option String)
        (send' : MessageOptions → TgResponse × Option String) (r : Int),
      limiter' r = limiter r →
      (∀ t, send' { ChatID := r, Text := t } = send { ChatID := r, Text := t }) →
      sendUnit limiter' send' options.Text r
        = sendUnit limiter send options.Text r) := by
  have hperm : (SendMessaging limiter send options order).Perm
      (options.ChatIDs.map (sendUnit limiter send options.Text)) := by
    unfold SendMessaging
    have h1 := h.filterMap
      (fun i => (options.ChatIDs.get? i).map (sendUnit limiter send options.Text))
    rw [filterMap_get_range options.ChatIDs
      (sendUnit limiter send options.Text)] at h1
    exact h1
  refine ⟨hperm, ?_, ?_, ?_⟩
  · rw [hperm.length_eq, List.length_map]
  · intro r
    rw [(hperm.filter (fun x => x.ChatID == r)).length_eq]
    rw [List.filter_map, List.length_map]
    congr 1
    apply List.filter_congr
    intro c _
    simp [Function.comp, sendUnit_ChatID]
  · intro limiter' send' r hl hs
    unfold sendUnit
    rw [hl, hs options.Text]

/-- Witness for `sendMessaging_results_spec`: two recipients completing
in reverse order. -/
theorem sendMessaging_results_spec_witness :
    (SendMessaging (fun _ => none) (fun _ => (⟨true, "", "", 0, 0⟩, none))
        ⟨[10, 20], "hi"⟩ [1, 0]).length = 2 := by
  have h := sendMessaging_results_spec (fun _ => none)
    (fun _ => (⟨true, "", "", 0, 0⟩, none)) ⟨[10, 20], "hi"⟩ [1, 0] (by decide)
  exact h.2.1

end Notephee
